import Mathlib

/-
Verification of the CCF (Connected Component Finder) min-propagation engine
from the notebook ccf-project-pyspark.ipynb.

The PySpark pipeline is shallowly embedded: an RDD of edges is a
List (Nat x Nat); union is list append, groupByKey collects the values of
each distinct key, map / filter / flatMap / sum are the list operations,
and the final dedup-by-grouping collapses duplicate pairs.  The partitionBy
and cache calls have no semantic content and are omitted.
-/

namespace CCF

/-- Python's `min` over a list of integers (0 on the empty list, which the
pipeline never passes: every group is nonempty). -/
def listMin : List Nat → Nat
  | [] => 0
  | [a] => a
  | a :: b :: t => min a (listMin (b :: t))

/-- The values grouped under key `k` by `groupByKey`, in input order. -/
def valuesOf (l : List (Nat × Nat)) (k : Nat) : List Nat :=
  (l.filter (fun p => p.1 == k)).map Prod.snd

/-- The distinct keys of a pair list. -/
def keysOf (l : List (Nat × Nat)) : List Nat := (l.map Prod.fst).dedup

/-- `rdd.union(rdd.map(lambda x: (x[1], x[0])))`: emit each edge in both
directions. -/
def emitPairs (rdd : List (Nat × Nat)) : List (Nat × Nat) :=
  rdd ++ rdd.map (fun p => (p.2, p.1))

/-- `groupByKey().mapValues(list)`: one record per distinct key. -/
def groupByKey (l : List (Nat × Nat)) : List (Nat × List Nat) :=
  (keysOf l).map (fun k => (k, valuesOf l k))

/-- One batch CCF iteration (`CFF_iterate` in the notebook): group the
symmetrised edges, take each group's minimum, keep the records whose key
exceeds the minimum, count the remaining non-minimum values, emit the
shortcut pairs and deduplicate them.  Returns the new edge list and the
new-pairs count. -/
def CFF_iterate (rdd : List (Nat × Nat)) : List (Nat × Nat) × Nat :=
  let graph := emitPairs rdd
  let grouped := groupByKey graph
  let withMin := grouped.map (fun x => (x.1, x.2, listMin x.2))
  let surv := withMin.filter (fun x => decide (x.2.2 < x.1))
  let removed := surv.map (fun x => (x.1, x.2.1.filter (fun v => v != x.2.2), x.2.2))
  let np := (removed.map (fun x => x.2.1.length)).sum
  let emit1 := removed.map (fun x => (x.1, x.2.2))
  let emit2 := removed.flatMap (fun x => x.2.1.map (fun v => (v, x.2.2)))
  ((emit1 ++ emit2).dedup, np)

/-- The surviving records of a batch iteration, after the minimum has been
removed from each value list. -/
def removedOf (rdd : List (Nat × Nat)) : List (Nat × List Nat × Nat) :=
  (((groupByKey (emitPairs rdd)).map (fun x => (x.1, x.2, listMin x.2))).filter
      (fun x => decide (x.2.2 < x.1))).map
    (fun x => (x.1, x.2.1.filter (fun v => v != x.2.2), x.2.2))

/-- The representative of node `n` in an edge list: the smallest value
paired with key `n`, and `n` itself when `n` has no entry. -/
def reprOf (rdd : List (Nat × Nat)) (n : Nat) : Nat :=
  match valuesOf rdd n with
  | [] => n
  | v :: t => listMin (v :: t)

/-- The edge list after `k` batch iterations. -/
def iterRdd (rdd : List (Nat × Nat)) : Nat → List (Nat × Nat)
  | 0 => rdd
  | k + 1 => (CFF_iterate (iterRdd rdd k)).1

/-- Edge lists in the shape every iteration output has: deduplicated, and
every pair strictly decreasing (value < key). -/
def Regime (E : List (Nat × Nat)) : Prop :=
  (∀ p ∈ E, p.2 < p.1) ∧ E.Nodup

/-- All node identifiers occurring in an edge list. -/
def nodesOf (E : List (Nat × Nat)) : Finset Nat :=
  (E.map Prod.fst).toFinset ∪ (E.map Prod.snd).toFinset

/-- Sum of representatives over a fixed universe: the termination measure's
first component. -/
def phiSum (U : Finset Nat) (E : List (Nat × Nat)) : Nat :=
  U.sum (fun x => reprOf E x)

/-- Python's `sorted` (ascending). -/
def sortAsc (l : List Nat) : List Nat := List.insertionSort (fun a b => a ≤ b) l

/-- One sorted-variant CCF iteration (`CFF_iterate_sorting`): the same
pipeline, but each group is sorted ascending, the minimum is read off as
the head `x[1][0]` and the re-emitted list is the tail `x[1][1:]`. -/
def CFF_iterate_sorting (rdd : List (Nat × Nat)) : List (Nat × Nat) × Nat :=
  let graph := emitPairs rdd
  let grouped := (groupByKey graph).map (fun x => (x.1, sortAsc x.2))
  let withMin := grouped.map (fun x => (x.1, x.2, x.2.headI))
  let surv := withMin.filter (fun x => decide (x.2.2 < x.1))
  let removed := surv.map (fun x => (x.1, x.2.1.tail, x.2.2))
  let np := (removed.map (fun x => x.2.1.length)).sum
  let emit1 := removed.map (fun x => (x.1, x.2.2))
  let emit2 := removed.flatMap (fun x => x.2.1.map (fun v => (v, x.2.2)))
  ((emit1 ++ emit2).dedup, np)

/-- The iteration selected by `process`'s `sorting` flag. -/
def stepOf (sorting : Bool) (rdd : List (Nat × Nat)) : List (Nat × Nat) × Nat :=
  if sorting then CFF_iterate_sorting rdd else CFF_iterate rdd

/-- The convergence driver (`process`): iterate while the new-pairs count
is positive, returning the final edge list together with the number of
productive (new-pairs > 0) iterations.  Fuel makes the recursion
structural; `none` means the fuel ran out before convergence. -/
def processFuel (sorting : Bool) : Nat → List (Nat × Nat) → Option (List (Nat × Nat) × Nat)
  | 0, _ => none
  | fuel + 1, rdd =>
    let r := stepOf sorting rdd
    if r.2 = 0 then some (r.1, 0)
    else
      match processFuel sorting fuel r.1 with
      | some (out, k) => some (out, k + 1)
      | none => none

/-- Inputs with no duplicate edge and no edge present together with its
reversal (hence no self-loop). -/
def GoodInput (rdd : List (Nat × Nat)) : Prop :=
  rdd.Nodup ∧ ∀ p ∈ rdd, (p.2, p.1) ∉ rdd

instance goodInputDecidable (rdd : List (Nat × Nat)) : Decidable (GoodInput rdd) := by
  unfold GoodInput
  infer_instance

/-- The sorted-variant surviving records, also keyed by the group minimum. -/
def removedSortOf (rdd : List (Nat × Nat)) : List (Nat × List Nat × Nat) :=
  ((((groupByKey (emitPairs rdd)).map (fun x => (x.1, sortAsc x.2))).map
        (fun x => (x.1, x.2, x.2.headI))).filter
      (fun x => decide (x.2.2 < x.1))).map
    (fun x => (x.1, x.2.1.tail, x.2.2))

theorem listMin_le {l : List Nat} {x : Nat} (hx : x ∈ l) : listMin l ≤ x := by
  induction l with
  | nil => cases hx
  | cons a t ih =>
    cases t with
    | nil =>
      rcases List.mem_singleton.mp hx with rfl
      simp [listMin]
    | cons b t2 =>
      rw [listMin]
      rcases List.mem_cons.mp hx with h | h
      · subst h; exact min_le_left _ _
      · exact le_trans (min_le_right _ _) (ih h)

theorem listMin_mem {l : List Nat} (h : l ≠ []) : listMin l ∈ l := by
  induction l with
  | nil => exact absurd rfl h
  | cons a t ih =>
    cases t with
    | nil => simp [listMin]
    | cons b t2 =>
      rw [listMin]
      rcases le_total a (listMin (b :: t2)) with hle | hle
      · simp [min_eq_left hle]
      · rw [min_eq_right hle]
        exact List.mem_cons_of_mem _ (ih (by simp))

theorem listMin_eq_of_all_eq {l : List Nat} {m : Nat} (hne : l ≠ [])
    (h : ∀ x ∈ l, x = m) : listMin l = m :=
  h _ (listMin_mem hne)

theorem listMin_perm {l₁ l₂ : List Nat} (h : List.Perm l₁ l₂) : listMin l₁ = listMin l₂ := by
  rcases eq_or_ne l₁ [] with rfl | h1
  · have : l₂ = [] := List.length_eq_zero.mp (h.length_eq.symm.trans rfl)
    rw [this]
  · have h2 : l₂ ≠ [] := by
      intro he
      exact h1 (List.length_eq_zero.mp (h.length_eq.trans (by simp [he])))
    exact le_antisymm (listMin_le (h.symm.subset (listMin_mem h2)))
      (listMin_le (h.subset (listMin_mem h1)))

theorem mem_valuesOf {l : List (Nat × Nat)} {k v : Nat} :
    v ∈ valuesOf l k ↔ (k, v) ∈ l := by
  unfold valuesOf
  simp only [List.mem_map, List.mem_filter, beq_iff_eq]
  constructor
  · rintro ⟨⟨a, b⟩, ⟨hmem, rfl⟩, rfl⟩
    exact hmem
  · intro hmem
    exact ⟨(k, v), ⟨hmem, rfl⟩, rfl⟩

theorem mem_keysOf {l : List (Nat × Nat)} {k : Nat} :
    k ∈ keysOf l ↔ ∃ v, (k, v) ∈ l := by
  unfold keysOf
  simp only [List.mem_dedup, List.mem_map]
  constructor
  · rintro ⟨⟨a, b⟩, hmem, rfl⟩
    exact ⟨b, hmem⟩
  · rintro ⟨v, hmem⟩
    exact ⟨(k, v), hmem, rfl⟩

theorem valuesOf_ne_nil_of_mem {l : List (Nat × Nat)} {k v : Nat}
    (h : (k, v) ∈ l) : valuesOf l k ≠ [] := by
  intro he
  have := mem_valuesOf.mpr h
  rw [he] at this
  cases this

theorem mem_emitPairs {rdd : List (Nat × Nat)} {a b : Nat} :
    (a, b) ∈ emitPairs rdd ↔ (a, b) ∈ rdd ∨ (b, a) ∈ rdd := by
  unfold emitPairs
  simp only [List.mem_append, List.mem_map]
  constructor
  · rintro (h | ⟨⟨x, y⟩, hmem, heq⟩)
    · exact Or.inl h
    · cases heq
      exact Or.inr hmem
  · rintro (h | h)
    · exact Or.inl h
    · exact Or.inr ⟨(b, a), h, rfl⟩

theorem emitPairs_symm {rdd : List (Nat × Nat)} {a b : Nat} :
    (a, b) ∈ emitPairs rdd ↔ (b, a) ∈ emitPairs rdd := by
  rw [mem_emitPairs, mem_emitPairs, or_comm]

theorem CFF_iterate_eq (rdd : List (Nat × Nat)) :
    CFF_iterate rdd =
      (((removedOf rdd).map (fun x => (x.1, x.2.2)) ++
          (removedOf rdd).flatMap (fun x => x.2.1.map (fun v => (v, x.2.2)))).dedup,
        ((removedOf rdd).map (fun x => x.2.1.length)).sum) := rfl

theorem mem_removedOf {rdd : List (Nat × Nat)} {y : Nat × List Nat × Nat} :
    y ∈ removedOf rdd ↔
      ∃ k, k ∈ keysOf (emitPairs rdd) ∧
        listMin (valuesOf (emitPairs rdd) k) < k ∧
        y = (k, (valuesOf (emitPairs rdd) k).filter
              (fun v => v != listMin (valuesOf (emitPairs rdd) k)),
            listMin (valuesOf (emitPairs rdd) k)) := by
  unfold removedOf groupByKey
  simp only [List.map_map, List.mem_map, List.mem_filter, Function.comp,
    decide_eq_true_eq]
  constructor
  · rintro ⟨x, ⟨⟨k, hk, rfl⟩, hlt⟩, rfl⟩
    exact ⟨k, hk, hlt, rfl⟩
  · rintro ⟨k, hk, hlt, rfl⟩
    exact ⟨(k, valuesOf (emitPairs rdd) k, listMin (valuesOf (emitPairs rdd) k)),
      ⟨⟨k, hk, rfl⟩, hlt⟩, rfl⟩

theorem sum_map_filter_map {α β : Type} (ks : List α) (g : α → β) (p : β → Bool)
    (f : β → Nat) :
    (((ks.map g).filter p).map f).sum =
      (ks.map (fun k => if p (g k) = true then f (g k) else 0)).sum := by
  induction ks with
  | nil => rfl
  | cons a t ih =>
    simp only [List.map_cons, List.filter_cons]
    cases hpa : p (g a) <;> simp [hpa, ih]

/-- The new-pairs count of a batch iteration: per key, the number of grouped
values different from the group minimum when the key exceeds that minimum. -/
theorem CFF_iterate_snd (rdd : List (Nat × Nat)) :
    (CFF_iterate rdd).2 =
      ((keysOf (emitPairs rdd)).map (fun k =>
        if listMin (valuesOf (emitPairs rdd) k) < k then
          ((valuesOf (emitPairs rdd) k).filter
            (fun v => v != listMin (valuesOf (emitPairs rdd) k))).length
        else 0)).sum := by
  have h2 : (CFF_iterate rdd).2 = ((removedOf rdd).map (fun x => x.2.1.length)).sum := by
    rw [CFF_iterate_eq]
  rw [h2]
  unfold removedOf groupByKey
  rw [List.map_map, List.map_map]
  rw [sum_map_filter_map]
  apply congrArg
  apply List.map_congr_left
  intro k _
  simp only [Function.comp, decide_eq_true_eq]

theorem mem_filter_values {V : List Nat} {m a : Nat} :
    a ∈ V.filter (fun v => v != m) ↔ a ∈ V ∧ a ≠ m := by
  simp [List.mem_filter]

theorem mem_CFF_output {rdd : List (Nat × Nat)} {a b : Nat} :
    (a, b) ∈ (CFF_iterate rdd).1 ↔
      ∃ k, k ∈ keysOf (emitPairs rdd) ∧
        listMin (valuesOf (emitPairs rdd) k) < k ∧
        b = listMin (valuesOf (emitPairs rdd) k) ∧
        (a = k ∨ (a ∈ valuesOf (emitPairs rdd) k ∧ a ≠ b)) := by
  rw [CFF_iterate_eq]
  simp only [List.mem_dedup, List.mem_append, List.mem_map, List.mem_flatMap]
  constructor
  · rintro (⟨x, hx, heq⟩ | ⟨x, hx, v, hv, heq⟩)
    · rcases mem_removedOf.mp hx with ⟨k, hk, hlt, rfl⟩
      cases heq
      exact ⟨k, hk, hlt, rfl, Or.inl rfl⟩
    · rcases mem_removedOf.mp hx with ⟨k, hk, hlt, rfl⟩
      cases heq
      rcases mem_filter_values.mp hv with ⟨hvV, hvne⟩
      exact ⟨k, hk, hlt, rfl, Or.inr ⟨hvV, hvne⟩⟩
  · rintro ⟨k, hk, hlt, rfl, ha⟩
    have hrec : (k, (valuesOf (emitPairs rdd) k).filter
        (fun v => v != listMin (valuesOf (emitPairs rdd) k)),
        listMin (valuesOf (emitPairs rdd) k)) ∈ removedOf rdd :=
      mem_removedOf.mpr ⟨k, hk, hlt, rfl⟩
    rcases ha with rfl | ⟨haV, hane⟩
    · exact Or.inl ⟨_, hrec, rfl⟩
    · exact Or.inr ⟨_, hrec, a, mem_filter_values.mpr ⟨haV, hane⟩, rfl⟩

theorem CFF_output_nodup (rdd : List (Nat × Nat)) : (CFF_iterate rdd).1.Nodup := by
  rw [CFF_iterate_eq]
  exact List.nodup_dedup _

theorem reprOf_of_empty {rdd : List (Nat × Nat)} {n : Nat}
    (h : valuesOf rdd n = []) : reprOf rdd n = n := by
  unfold reprOf
  rw [h]

theorem reprOf_eq_listMin {rdd : List (Nat × Nat)} {n : Nat}
    (h : valuesOf rdd n ≠ []) : reprOf rdd n = listMin (valuesOf rdd n) := by
  unfold reprOf
  cases hv : valuesOf rdd n with
  | nil => exact absurd hv h
  | cons a t => rfl

theorem reprOf_le_of_mem {rdd : List (Nat × Nat)} {n v : Nat}
    (h : (n, v) ∈ rdd) : reprOf rdd n ≤ v := by
  rw [reprOf_eq_listMin (valuesOf_ne_nil_of_mem h)]
  exact listMin_le (mem_valuesOf.mpr h)

theorem reprOf_mem {rdd : List (Nat × Nat)} {n : Nat}
    (h : valuesOf rdd n ≠ []) : (n, reprOf rdd n) ∈ rdd := by
  rw [reprOf_eq_listMin h]
  exact mem_valuesOf.mp (listMin_mem h)

theorem reprOf_mem_of_lt {rdd : List (Nat × Nat)} {n : Nat}
    (h : reprOf rdd n < n) : (n, reprOf rdd n) ∈ rdd := by
  rcases eq_or_ne (valuesOf rdd n) [] with he | hne
  · rw [reprOf_of_empty he] at h
    exact absurd h (lt_irrefl n)
  · exact reprOf_mem hne

theorem valuesOf_ne_nil_of_key {l : List (Nat × Nat)} {k : Nat}
    (h : k ∈ keysOf l) : valuesOf l k ≠ [] := by
  rcases mem_keysOf.mp h with ⟨v, hv⟩
  exact valuesOf_ne_nil_of_mem hv

theorem CFF_output_snd_lt_fst {rdd : List (Nat × Nat)} {a b : Nat}
    (h : (a, b) ∈ (CFF_iterate rdd).1) : b < a := by
  rcases mem_CFF_output.mp h with ⟨k, hk, hlt, rfl, hcase⟩
  rcases hcase with rfl | ⟨haV, hane⟩
  · exact hlt
  · exact lt_of_le_of_ne (listMin_le haV) (Ne.symm hane)

/-- Monotonicity, one step: the representative of every node never increases
across one batch iteration. -/
theorem reprOf_CFF_le (rdd : List (Nat × Nat)) (n : Nat) :
    reprOf (CFF_iterate rdd).1 n ≤ reprOf rdd n := by
  rcases lt_or_le (reprOf rdd n) n with hlt | hle
  · have hmem : (n, reprOf rdd n) ∈ rdd := reprOf_mem_of_lt hlt
    have hG : (n, reprOf rdd n) ∈ emitPairs rdd := mem_emitPairs.mpr (Or.inl hmem)
    have hV : reprOf rdd n ∈ valuesOf (emitPairs rdd) n := mem_valuesOf.mpr hG
    have hkey : n ∈ keysOf (emitPairs rdd) := mem_keysOf.mpr ⟨_, hG⟩
    have hminle : listMin (valuesOf (emitPairs rdd) n) ≤ reprOf rdd n := listMin_le hV
    have hout : (n, listMin (valuesOf (emitPairs rdd) n)) ∈ (CFF_iterate rdd).1 :=
      mem_CFF_output.mpr ⟨n, hkey, lt_of_le_of_lt hminle hlt, rfl, Or.inl rfl⟩
    exact le_trans (reprOf_le_of_mem hout) hminle
  · rcases eq_or_ne (valuesOf (CFF_iterate rdd).1 n) [] with he | hne
    · rw [reprOf_of_empty he]
      exact hle
    · exact le_trans (le_of_lt (CFF_output_snd_lt_fst (reprOf_mem hne))) hle

/-- After an iteration, every node's representative is at most the node. -/
theorem reprOf_CFF_le_self (rdd : List (Nat × Nat)) (n : Nat) :
    reprOf (CFF_iterate rdd).1 n ≤ n := by
  rcases eq_or_ne (valuesOf (CFF_iterate rdd).1 n) [] with he | hne
  · rw [reprOf_of_empty he]
  · exact le_of_lt (CFF_output_snd_lt_fst (reprOf_mem hne))

theorem np_zero_all_values_eq {rdd : List (Nat × Nat)}
    (h : (CFF_iterate rdd).2 = 0) {k : Nat}
    (hk : k ∈ keysOf (emitPairs rdd))
    (hlt : listMin (valuesOf (emitPairs rdd) k) < k) :
    ∀ v ∈ valuesOf (emitPairs rdd) k, v = listMin (valuesOf (emitPairs rdd) k) := by
  rw [CFF_iterate_snd] at h
  intro v hv
  by_contra hne
  have hzero := List.sum_eq_zero_iff.mp h
  have hentry : (if listMin (valuesOf (emitPairs rdd) k) < k then
      ((valuesOf (emitPairs rdd) k).filter
        (fun v => v != listMin (valuesOf (emitPairs rdd) k))).length
      else 0) = 0 :=
    hzero _ (List.mem_map_of_mem _ hk)
  rw [if_pos hlt] at hentry
  have hmemf : v ∈ (valuesOf (emitPairs rdd) k).filter
      (fun v => v != listMin (valuesOf (emitPairs rdd) k)) :=
    mem_filter_values.mpr ⟨hv, hne⟩
  rw [List.length_eq_zero] at hentry
  rw [hentry] at hmemf
  cases hmemf

/-- At a converged iteration (count 0) the output consists exactly of the
pairs (key, group minimum) of the surviving records. -/
theorem mem_output_np_zero {rdd : List (Nat × Nat)} {a b : Nat}
    (h : (CFF_iterate rdd).2 = 0) :
    (a, b) ∈ (CFF_iterate rdd).1 ↔
      a ∈ keysOf (emitPairs rdd) ∧ listMin (valuesOf (emitPairs rdd) a) < a ∧
        b = listMin (valuesOf (emitPairs rdd) a) := by
  rw [mem_CFF_output]
  constructor
  · rintro ⟨k, hk, hlt, rfl, hcase⟩
    rcases hcase with rfl | ⟨haV, hane⟩
    · exact ⟨hk, hlt, rfl⟩
    · exact absurd (np_zero_all_values_eq h hk hlt a haV) hane
  · rintro ⟨hk, hlt, rfl⟩
    exact ⟨a, hk, hlt, rfl, Or.inl rfl⟩

/-- Fixpoint property of a converged output: the representative of a
representative is itself. -/
theorem converged_fixpoint (rdd : List (Nat × Nat))
    (h : (CFF_iterate rdd).2 = 0) (n : Nat) :
    reprOf (CFF_iterate rdd).1 (reprOf (CFF_iterate rdd).1 n) =
      reprOf (CFF_iterate rdd).1 n := by
  rcases eq_or_ne (valuesOf (CFF_iterate rdd).1 n) [] with he | hne
  · rw [reprOf_of_empty he]
    exact reprOf_of_empty he
  · have hmem : (n, reprOf (CFF_iterate rdd).1 n) ∈ (CFF_iterate rdd).1 :=
      reprOf_mem hne
    rcases (mem_output_np_zero h).mp hmem with ⟨hk, hlt, hb⟩
    set r := reprOf (CFF_iterate rdd).1 n with hr
    have hVempty : valuesOf (CFF_iterate rdd).1 r = [] := by
      by_contra hVne
      have hmem2 : (r, reprOf (CFF_iterate rdd).1 r) ∈ (CFF_iterate rdd).1 :=
        reprOf_mem hVne
      rcases (mem_output_np_zero h).mp hmem2 with ⟨hk2, hlt2, hb2⟩
      have hrV : r ∈ valuesOf (emitPairs rdd) n := by
        rw [hb]
        exact listMin_mem (valuesOf_ne_nil_of_key hk)
      have hnG : (n, r) ∈ emitPairs rdd := mem_valuesOf.mp hrV
      have hrG : (r, n) ∈ emitPairs rdd := emitPairs_symm.mp hnG
      have hnV : n ∈ valuesOf (emitPairs rdd) r := mem_valuesOf.mpr hrG
      have hn_eq : n = listMin (valuesOf (emitPairs rdd) r) :=
        np_zero_all_values_eq h hk2 hlt2 n hnV
      have h1 : listMin (valuesOf (emitPairs rdd) r) < r := hlt2
      rw [← hn_eq] at h1
      have h2 : r < n := by
        rw [hb]
        exact hlt
      exact absurd (lt_trans h1 h2) (lt_irrefl n)
    rw [reprOf_of_empty hVempty]

/-- Idempotence core: one further batch iteration on a converged output
reports zero new pairs. -/
theorem npZero_iterate_npZero (rdd : List (Nat × Nat))
    (h : (CFF_iterate rdd).2 = 0) :
    (CFF_iterate (CFF_iterate rdd).1).2 = 0 := by
  set E := (CFF_iterate rdd).1 with hE
  have hfun : ∀ {x y y' : Nat}, (x, y) ∈ E → (x, y') ∈ E → y = y' := by
    intro x y y' h1 h2
    rcases (mem_output_np_zero h).mp h1 with ⟨_, _, hb1⟩
    rcases (mem_output_np_zero h).mp h2 with ⟨_, _, hb2⟩
    rw [hb1, hb2]
  have hnochain : ∀ {x y z : Nat}, (x, y) ∈ E → (y, z) ∈ E → False := by
    intro x y z h1 h2
    rcases (mem_output_np_zero h).mp h1 with ⟨hk1, hlt1, hb1⟩
    rcases (mem_output_np_zero h).mp h2 with ⟨hk2, hlt2, hb2⟩
    have hyV : y ∈ valuesOf (emitPairs rdd) x := by
      rw [hb1]
      exact listMin_mem (valuesOf_ne_nil_of_key hk1)
    have hxV : x ∈ valuesOf (emitPairs rdd) y :=
      mem_valuesOf.mpr (emitPairs_symm.mp (mem_valuesOf.mp hyV))
    have hx_eq : x = listMin (valuesOf (emitPairs rdd) y) :=
      np_zero_all_values_eq h hk2 hlt2 x hxV
    have hxlty : x < y := by
      rw [hx_eq]
      exact hlt2
    have hyltx : y < x := CFF_output_snd_lt_fst h1
    exact absurd (lt_trans hxlty hyltx) (lt_irrefl x)
  rw [CFF_iterate_snd]
  apply List.sum_eq_zero
  intro x hx
  rcases List.mem_map.mp hx with ⟨k, hk, rfl⟩
  by_cases hkey : ∃ y, (k, y) ∈ E
  · rcases hkey with ⟨y0, hy0⟩
    have hall : ∀ v ∈ valuesOf (emitPairs E) k, v = y0 := by
      intro v hv
      rcases mem_emitPairs.mp (mem_valuesOf.mp hv) with hvE | hvE
      · exact hfun hvE hy0
      · exact absurd (hnochain hvE hy0) id
    have hne : valuesOf (emitPairs E) k ≠ [] :=
      valuesOf_ne_nil_of_key hk
    have hmin : listMin (valuesOf (emitPairs E) k) = y0 :=
      listMin_eq_of_all_eq hne hall
    have hfilter : (valuesOf (emitPairs E) k).filter
        (fun v => v != listMin (valuesOf (emitPairs E) k)) = [] := by
      rw [List.filter_eq_nil_iff]
      intro v hv
      rw [hmin]
      simp [hall v hv]
    split
    · rw [hfilter]
      rfl
    · rfl
  · have hallgt : ∀ v ∈ valuesOf (emitPairs E) k, k < v := by
      intro v hv
      rcases mem_emitPairs.mp (mem_valuesOf.mp hv) with hvE | hvE
      · exact absurd ⟨v, hvE⟩ hkey
      · exact CFF_output_snd_lt_fst hvE
    have hne : valuesOf (emitPairs E) k ≠ [] :=
      valuesOf_ne_nil_of_key hk
    have : k < listMin (valuesOf (emitPairs E) k) :=
      hallgt _ (listMin_mem hne)
    rw [if_neg (by omega)]

theorem mem_nodesOf {E : List (Nat × Nat)} {a : Nat} :
    a ∈ nodesOf E ↔ (∃ b, (a, b) ∈ E) ∨ (∃ b, (b, a) ∈ E) := by
  unfold nodesOf
  simp only [Finset.mem_union, List.mem_toFinset, List.mem_map]
  constructor
  · rintro (⟨⟨x, y⟩, hm, rfl⟩ | ⟨⟨x, y⟩, hm, rfl⟩)
    · exact Or.inl ⟨y, hm⟩
    · exact Or.inr ⟨x, hm⟩
  · rintro (⟨b, hm⟩ | ⟨b, hm⟩)
    · exact Or.inl ⟨(a, b), hm, rfl⟩
    · exact Or.inr ⟨(b, a), hm, rfl⟩

theorem nodes_of_emitPairs {rdd : List (Nat × Nat)} {x y : Nat}
    (h : (x, y) ∈ emitPairs rdd) : x ∈ nodesOf rdd ∧ y ∈ nodesOf rdd := by
  rcases mem_emitPairs.mp h with hm | hm
  · exact ⟨mem_nodesOf.mpr (Or.inl ⟨y, hm⟩), mem_nodesOf.mpr (Or.inr ⟨x, hm⟩)⟩
  · exact ⟨mem_nodesOf.mpr (Or.inr ⟨y, hm⟩), mem_nodesOf.mpr (Or.inl ⟨x, hm⟩)⟩

theorem regime_CFF_output (rdd : List (Nat × Nat)) : Regime (CFF_iterate rdd).1 := by
  constructor
  · rintro ⟨a, b⟩ hp
    exact CFF_output_snd_lt_fst hp
  · exact CFF_output_nodup rdd

theorem nodesOf_CFF_subset (rdd : List (Nat × Nat)) :
    nodesOf (CFF_iterate rdd).1 ⊆ nodesOf rdd := by
  intro a ha
  rcases mem_nodesOf.mp ha with ⟨b, hab⟩ | ⟨b, hba⟩
  · rcases mem_CFF_output.mp hab with ⟨k, hk, hlt, rfl, hcase⟩
    rcases hcase with rfl | ⟨haV, _⟩
    · rcases mem_keysOf.mp hk with ⟨v, hv⟩
      exact (nodes_of_emitPairs hv).1
    · exact (nodes_of_emitPairs (mem_valuesOf.mp haV)).2
  · rcases mem_CFF_output.mp hba with ⟨k, hk, hlt, rfl, _⟩
    have hmin : listMin (valuesOf (emitPairs rdd) k) ∈ valuesOf (emitPairs rdd) k :=
      listMin_mem (valuesOf_ne_nil_of_key hk)
    exact (nodes_of_emitPairs (mem_valuesOf.mp hmin)).2

theorem phiSum_CFF_le (U : Finset Nat) (rdd : List (Nat × Nat)) :
    phiSum U (CFF_iterate rdd).1 ≤ phiSum U rdd :=
  Finset.sum_le_sum (fun x _ => reprOf_CFF_le rdd x)

theorem phiSum_stable (U : Finset Nat) (rdd : List (Nat × Nat))
    (h : phiSum U (CFF_iterate rdd).1 = phiSum U rdd) :
    ∀ x ∈ U, reprOf (CFF_iterate rdd).1 x = reprOf rdd x :=
  (Finset.sum_eq_sum_iff_of_le (fun x _ => reprOf_CFF_le rdd x)).mp h

/-- In the regime, a surviving group's minimum is exactly the key's current
representative, realised by an edge of the list. -/
theorem regime_min_eq_reprOf {E : List (Nat × Nat)} (hreg : Regime E) {k : Nat}
    (hne : valuesOf (emitPairs E) k ≠ [])
    (hlt : listMin (valuesOf (emitPairs E) k) < k) :
    (k, listMin (valuesOf (emitPairs E) k)) ∈ E ∧
      listMin (valuesOf (emitPairs E) k) = reprOf E k := by
  have hminV : listMin (valuesOf (emitPairs E) k) ∈ valuesOf (emitPairs E) k :=
    listMin_mem hne
  have hG : (k, listMin (valuesOf (emitPairs E) k)) ∈ emitPairs E :=
    mem_valuesOf.mp hminV
  have hkE : (k, listMin (valuesOf (emitPairs E) k)) ∈ E := by
    rcases mem_emitPairs.mp hG with hm | hm
    · exact hm
    · have := hreg.1 _ hm
      simp only at this
      omega
  refine ⟨hkE, le_antisymm ?_ (reprOf_le_of_mem hkE)⟩
  have hrE : (k, reprOf E k) ∈ E := reprOf_mem (valuesOf_ne_nil_of_mem hkE)
  have hrG : reprOf E k ∈ valuesOf (emitPairs E) k :=
    mem_valuesOf.mpr (mem_emitPairs.mpr (Or.inl hrE))
  exact listMin_le hrG

/-- If every representative is unchanged by an iteration, the output edges
all already existed in the input. -/
theorem stable_subset {E : List (Nat × Nat)} {U : Finset Nat}
    (hreg : Regime E) (hU : nodesOf E ⊆ U)
    (hstab : ∀ x ∈ U, reprOf (CFF_iterate E).1 x = reprOf E x) :
    ∀ p ∈ (CFF_iterate E).1, p ∈ E := by
  rintro ⟨a, b⟩ hp
  rcases mem_CFF_output.mp hp with ⟨k, hk, hlt, rfl, hcase⟩
  have hne : valuesOf (emitPairs E) k ≠ [] := valuesOf_ne_nil_of_key hk
  obtain ⟨hkE, hmr⟩ := regime_min_eq_reprOf hreg hne hlt
  rcases hcase with rfl | ⟨haV, hane⟩
  · exact hkE
  · have hma : listMin (valuesOf (emitPairs E) k) < a :=
      lt_of_le_of_ne (listMin_le haV) (Ne.symm hane)
    have haG : (k, a) ∈ emitPairs E := mem_valuesOf.mp haV
    have haNodes : a ∈ nodesOf E := by
      rcases mem_emitPairs.mp haG with hm2 | hm2
      · exact mem_nodesOf.mpr (Or.inr ⟨k, hm2⟩)
      · exact mem_nodesOf.mpr (Or.inl ⟨k, hm2⟩)
    have hstaba : reprOf (CFF_iterate E).1 a = reprOf E a := hstab a (hU haNodes)
    have hout_le : reprOf (CFF_iterate E).1 a ≤ listMin (valuesOf (emitPairs E) k) :=
      reprOf_le_of_mem hp
    have hra_le : reprOf E a ≤ listMin (valuesOf (emitPairs E) k) := hstaba ▸ hout_le
    have hra_lt : reprOf E a < a := lt_of_le_of_lt hra_le hma
    have hraE : (a, reprOf E a) ∈ E := reprOf_mem_of_lt hra_lt
    rcases eq_or_lt_of_le hra_le with heq | hlt2
    · rw [← heq]
      exact hraE
    · exfalso
      have haG2 : (a, k) ∈ emitPairs E := emitPairs_symm.mp haG
      have hkVa : k ∈ valuesOf (emitPairs E) a := mem_valuesOf.mpr haG2
      have haKeys : a ∈ keysOf (emitPairs E) := mem_keysOf.mpr ⟨k, haG2⟩
      have hVa_ne : valuesOf (emitPairs E) a ≠ [] := valuesOf_ne_nil_of_key haKeys
      have hminVa_le : listMin (valuesOf (emitPairs E) a) ≤ reprOf E a :=
        listMin_le (mem_valuesOf.mpr (mem_emitPairs.mpr (Or.inl hraE)))
      have hminVa_lt : listMin (valuesOf (emitPairs E) a) < a :=
        lt_of_le_of_lt hminVa_le hra_lt
      obtain ⟨hE2, hminVa_eq⟩ := regime_min_eq_reprOf hreg hVa_ne hminVa_lt
      have hkne : k ≠ listMin (valuesOf (emitPairs E) a) := by
        rw [hminVa_eq]
        intro hkeq
        omega
      have houtk : (k, listMin (valuesOf (emitPairs E) a)) ∈ (CFF_iterate E).1 :=
        mem_CFF_output.mpr ⟨a, haKeys, hminVa_lt, rfl, Or.inr ⟨hkVa, hkne⟩⟩
      have hkNodes : k ∈ nodesOf E := mem_nodesOf.mpr (Or.inl ⟨_, hkE⟩)
      have hstabk : reprOf (CFF_iterate E).1 k = reprOf E k := hstab k (hU hkNodes)
      have hfinal : reprOf E k ≤ listMin (valuesOf (emitPairs E) a) :=
        hstabk ▸ reprOf_le_of_mem houtk
      rw [hminVa_eq] at hfinal
      rw [← hmr] at hfinal
      omega

theorem np_pos_witness {rdd : List (Nat × Nat)} (h : (CFF_iterate rdd).2 ≠ 0) :
    ∃ k ∈ keysOf (emitPairs rdd), listMin (valuesOf (emitPairs rdd) k) < k ∧
      ∃ x ∈ valuesOf (emitPairs rdd) k, x ≠ listMin (valuesOf (emitPairs rdd) k) := by
  rw [CFF_iterate_snd] at h
  by_contra hall
  push_neg at hall
  apply h
  apply List.sum_eq_zero
  intro x hx
  rcases List.mem_map.mp hx with ⟨k, hk, rfl⟩
  by_cases hlt : listMin (valuesOf (emitPairs rdd) k) < k
  · have hcall := hall k hk hlt
    rw [if_pos hlt, List.length_eq_zero, List.filter_eq_nil_iff]
    intro v hv
    simp only [bne_iff_ne, ne_eq, not_not]
    exact hcall v hv
  · rw [if_neg hlt]

/-- If every representative is unchanged by an iteration yet the new-pairs
count is positive, some input edge disappears from the output. -/
theorem stable_proper {E : List (Nat × Nat)} {U : Finset Nat}
    (hreg : Regime E) (hU : nodesOf E ⊆ U)
    (hstab : ∀ x ∈ U, reprOf (CFF_iterate E).1 x = reprOf E x)
    (hc : (CFF_iterate E).2 ≠ 0) :
    ∃ p ∈ E, p ∉ (CFF_iterate E).1 := by
  obtain ⟨k, hk, hlt, x, hxV, hxne⟩ := np_pos_witness hc
  have hsub := stable_subset hreg hU hstab
  have hne : valuesOf (emitPairs E) k ≠ [] := valuesOf_ne_nil_of_key hk
  obtain ⟨hkE, hmr⟩ := regime_min_eq_reprOf hreg hne hlt
  have hNRne : ∃ p, p ∈ E.filter (fun p => p.2 != reprOf E p.1) := by
    have hxG : (k, x) ∈ emitPairs E := mem_valuesOf.mp hxV
    rcases mem_emitPairs.mp hxG with hm2 | hm2
    · refine ⟨(k, x), List.mem_filter.mpr ⟨hm2, ?_⟩⟩
      simp only [bne_iff_ne, ne_eq, decide_eq_true_eq]
      rw [← hmr]
      exact fun hcontra => hxne hcontra
    · have hxout : (x, listMin (valuesOf (emitPairs E) k)) ∈ (CFF_iterate E).1 :=
        mem_CFF_output.mpr ⟨k, hk, hlt, rfl, Or.inr ⟨hxV, hxne⟩⟩
      have hxE : (x, listMin (valuesOf (emitPairs E) k)) ∈ E := hsub _ hxout
      have hrx_le : reprOf E x ≤ listMin (valuesOf (emitPairs E) k) :=
        reprOf_le_of_mem hxE
      refine ⟨(x, k), List.mem_filter.mpr ⟨hm2, ?_⟩⟩
      simp only [bne_iff_ne, ne_eq, decide_eq_true_eq]
      intro hcontra
      omega
  obtain ⟨p0, hp0⟩ := hNRne
  have hNRnil : E.filter (fun p => p.2 != reprOf E p.1) ≠ [] := by
    intro hnil
    rw [hnil] at hp0
    cases hp0
  rcases hq2 : (E.filter (fun p => p.2 != reprOf E p.1)).argmax Prod.snd with _ | q
  · rw [List.argmax_eq_none] at hq2
    exact absurd hq2 hNRnil
  · have hqNR : q ∈ E.filter (fun p => p.2 != reprOf E p.1) := List.argmax_mem hq2
    have hqmax : ∀ p ∈ E.filter (fun p => p.2 != reprOf E p.1), p.2 ≤ q.2 :=
      fun p hp => List.le_of_mem_argmax hp hq2
    obtain ⟨a, b⟩ := q
    obtain ⟨hqE, hqne⟩ := List.mem_filter.mp hqNR
    simp only [bne_iff_ne, ne_eq, decide_eq_true_eq] at hqne
    refine ⟨(a, b), hqE, fun hqout => ?_⟩
    rcases mem_CFF_output.mp hqout with ⟨n2, hk2, hlt2, hb, hcase⟩
    have hne2 : valuesOf (emitPairs E) n2 ≠ [] := valuesOf_ne_nil_of_key hk2
    obtain ⟨hkE2, hmr2⟩ := regime_min_eq_reprOf hreg hne2 hlt2
    rcases hcase with rfl | ⟨haV, hane⟩
    · rw [hb, hmr2] at hqne
      exact hqne rfl
    · have hba : b < a := by
        have := listMin_le haV
        rw [← hb] at this
        exact lt_of_le_of_ne this (fun hcontra => hane hcontra.symm)
      have haG : (n2, a) ∈ emitPairs E := mem_valuesOf.mp haV
      rcases mem_emitPairs.mp haG with hm2 | hm2
      · have hmem : (n2, a) ∈ E.filter (fun p => p.2 != reprOf E p.1) := by
          refine List.mem_filter.mpr ⟨hm2, ?_⟩
          simp only [bne_iff_ne, ne_eq, decide_eq_true_eq]
          rw [← hmr2]
          exact fun hcontra => hane (hcontra.trans hb.symm)
        have h1 : a ≤ b := hqmax _ hmem
        omega
      · by_cases hn2r : n2 = reprOf E a
        · have h1 : reprOf E a ≤ b := reprOf_le_of_mem hqE
          have h2 : b < n2 := by
            rw [hb]
            exact hlt2
          omega
        · have hmem : (a, n2) ∈ E.filter (fun p => p.2 != reprOf E p.1) := by
            refine List.mem_filter.mpr ⟨hm2, ?_⟩
            simp only [bne_iff_ne, ne_eq, decide_eq_true_eq]
            exact hn2r
          have h1 : n2 ≤ b := hqmax _ hmem
          have h2 : b < n2 := by
            rw [hb]
            exact hlt2
          omega

theorem iterRdd_shift (E : List (Nat × Nat)) :
    ∀ k, iterRdd E (k + 1) = iterRdd (CFF_iterate E).1 k := by
  intro k
  induction k with
  | zero => rfl
  | succ n ih =>
    show (CFF_iterate (iterRdd E (n + 1))).1 = (CFF_iterate (iterRdd (CFF_iterate E).1 n)).1
    rw [ih]

/-- Lexicographic progress: a non-converged iteration in the regime either
strictly decreases the representative sum or keeps it and strictly shrinks
the edge set. -/
theorem term_step {E : List (Nat × Nat)} {U : Finset Nat}
    (hreg : Regime E) (hU : nodesOf E ⊆ U) (hc : (CFF_iterate E).2 ≠ 0) :
    phiSum U (CFF_iterate E).1 < phiSum U E ∨
      (phiSum U (CFF_iterate E).1 = phiSum U E ∧
        (CFF_iterate E).1.toFinset.card < E.toFinset.card) := by
  rcases lt_or_eq_of_le (phiSum_CFF_le U E) with hlt | heq
  · exact Or.inl hlt
  · refine Or.inr ⟨heq, ?_⟩
    have hstab := phiSum_stable U E heq
    have hsub : (CFF_iterate E).1.toFinset ⊆ E.toFinset := by
      intro p hp
      rw [List.mem_toFinset] at hp ⊢
      exact stable_subset hreg hU hstab p hp
    obtain ⟨p, hpE, hpout⟩ := stable_proper hreg hU hstab hc
    apply Finset.card_lt_card
    rw [Finset.ssubset_iff_of_subset hsub]
    exact ⟨p, List.mem_toFinset.mpr hpE, fun hmem => hpout (List.mem_toFinset.mp hmem)⟩

theorem term_from (N : Nat) :
    ∀ (M : Nat) (E : List (Nat × Nat)) (U : Finset Nat),
      Regime E → nodesOf E ⊆ U → phiSum U E ≤ N → E.toFinset.card ≤ M →
      ∃ k, (CFF_iterate (iterRdd E k)).2 = 0 := by
  induction N with
  | zero =>
    intro M
    induction M with
    | zero =>
      intro E U hreg hU hphi hcard
      by_cases hc : (CFF_iterate E).2 = 0
      · exact ⟨0, hc⟩
      · rcases term_step hreg hU hc with hlt | ⟨_, hlt2⟩
        · omega
        · omega
    | succ m ihM =>
      intro E U hreg hU hphi hcard
      by_cases hc : (CFF_iterate E).2 = 0
      · exact ⟨0, hc⟩
      · rcases term_step hreg hU hc with hlt | ⟨heq, hlt2⟩
        · omega
        · obtain ⟨k, hk⟩ := ihM (CFF_iterate E).1 U (regime_CFF_output E)
            (le_trans (nodesOf_CFF_subset E) hU) (by omega) (by omega)
          refine ⟨k + 1, ?_⟩
          rw [iterRdd_shift]
          exact hk
  | succ n ihN =>
    intro M
    induction M with
    | zero =>
      intro E U hreg hU hphi hcard
      by_cases hc : (CFF_iterate E).2 = 0
      · exact ⟨0, hc⟩
      · rcases term_step hreg hU hc with hlt | ⟨_, hlt2⟩
        · obtain ⟨k, hk⟩ := ihN (CFF_iterate E).1.toFinset.card (CFF_iterate E).1 U
            (regime_CFF_output E) (le_trans (nodesOf_CFF_subset E) hU) (by omega)
            (le_refl _)
          refine ⟨k + 1, ?_⟩
          rw [iterRdd_shift]
          exact hk
        · omega
    | succ m ihM =>
      intro E U hreg hU hphi hcard
      by_cases hc : (CFF_iterate E).2 = 0
      · exact ⟨0, hc⟩
      · rcases term_step hreg hU hc with hlt | ⟨heq, hlt2⟩
        · obtain ⟨k, hk⟩ := ihN (CFF_iterate E).1.toFinset.card (CFF_iterate E).1 U
            (regime_CFF_output E) (le_trans (nodesOf_CFF_subset E) hU) (by omega)
            (le_refl _)
          refine ⟨k + 1, ?_⟩
          rw [iterRdd_shift]
          exact hk
        · obtain ⟨k, hk⟩ := ihM (CFF_iterate E).1 U (regime_CFF_output E)
            (le_trans (nodesOf_CFF_subset E) hU) (by omega) (by omega)
          refine ⟨k + 1, ?_⟩
          rw [iterRdd_shift]
          exact hk

/-- Every run of the batch engine reaches an iteration with zero new pairs. -/
theorem npAt_eventually_zero (rdd : List (Nat × Nat)) :
    ∃ k, (CFF_iterate (iterRdd rdd k)).2 = 0 := by
  by_cases hc : (CFF_iterate rdd).2 = 0
  · exact ⟨0, hc⟩
  · obtain ⟨k, hk⟩ := term_from (phiSum (nodesOf (CFF_iterate rdd).1) (CFF_iterate rdd).1)
      (CFF_iterate rdd).1.toFinset.card (CFF_iterate rdd).1 (nodesOf (CFF_iterate rdd).1)
      (regime_CFF_output rdd) (le_refl _) (le_refl _) (le_refl _)
    refine ⟨k + 1, ?_⟩
    rw [iterRdd_shift]
    exact hk

theorem stepOf_false (rdd : List (Nat × Nat)) : stepOf false rdd = CFF_iterate rdd := rfl

theorem stepOf_true (rdd : List (Nat × Nat)) : stepOf true rdd = CFF_iterate_sorting rdd := rfl

theorem processFuel_succ (sorting : Bool) (fuel : Nat) (rdd : List (Nat × Nat)) :
    processFuel sorting (fuel + 1) rdd =
      if (stepOf sorting rdd).2 = 0 then some ((stepOf sorting rdd).1, 0)
      else
        match processFuel sorting fuel (stepOf sorting rdd).1 with
        | some (o, k) => some (o, k + 1)
        | none => none := rfl

theorem processFuel_some : ∀ (k : Nat) (rdd : List (Nat × Nat)),
    (CFF_iterate (iterRdd rdd k)).2 = 0 →
    ∃ out j, processFuel false (k + 1) rdd = some (out, j) := by
  intro k
  induction k with
  | zero =>
    intro rdd h
    have h2 : (CFF_iterate rdd).2 = 0 := h
    refine ⟨(CFF_iterate rdd).1, 0, ?_⟩
    rw [processFuel_succ, stepOf_false, if_pos h2]
  | succ n ih =>
    intro rdd h
    by_cases hc : (CFF_iterate rdd).2 = 0
    · refine ⟨(CFF_iterate rdd).1, 0, ?_⟩
      rw [processFuel_succ, stepOf_false, if_pos hc]
    · rw [iterRdd_shift] at h
      obtain ⟨out, j, hpf⟩ := ih (CFF_iterate rdd).1 h
      refine ⟨out, j + 1, ?_⟩
      rw [processFuel_succ, stepOf_false, if_neg hc, hpf]

/-- Whatever the driver returns was produced by a final iteration that
reported zero new pairs. -/
theorem processFuel_out (sorting : Bool) :
    ∀ (fuel : Nat) (rdd out : List (Nat × Nat)) (k : Nat),
      processFuel sorting fuel rdd = some (out, k) →
      ∃ E, out = (stepOf sorting E).1 ∧ (stepOf sorting E).2 = 0 := by
  intro fuel
  induction fuel with
  | zero =>
    intro rdd out k h
    cases h
  | succ n ih =>
    intro rdd out k h
    rw [processFuel_succ] at h
    by_cases hc : (stepOf sorting rdd).2 = 0
    · rw [if_pos hc] at h
      simp only [Option.some.injEq, Prod.mk.injEq] at h
      exact ⟨rdd, h.1.symm, hc⟩
    · rw [if_neg hc] at h
      cases hrec : processFuel sorting n (stepOf sorting rdd).1 with
      | none =>
        rw [hrec] at h
        cases h
      | some r =>
        obtain ⟨r1, r2⟩ := r
        rw [hrec] at h
        simp only [Option.some.injEq, Prod.mk.injEq] at h
        obtain ⟨E, hE1, hE2⟩ := ih (stepOf sorting rdd).1 r1 r2 hrec
        exact ⟨E, h.1.symm.trans hE1, hE2⟩

/-- C2 counterexample: on the reference scenario the third iteration
(index 2) reports 4 new pairs, not zero, and the driver performs 3
productive iterations, not 2, so the claimed count to convergence fails. -/
theorem claim_C2_counterexample :
    (CFF_iterate (iterRdd [(1, 2), (2, 3), (2, 4), (4, 5), (6, 7), (7, 8)] 2)).2 = 4 ∧
      (processFuel false 10 [(1, 2), (2, 3), (2, 4), (4, 5), (6, 7), (7, 8)]).map
        Prod.snd = some 3 ∧ (4 : Nat) ≠ 0 ∧ (3 : Nat) ≠ 2 := by
  decide

/-- C2 amended: on edges {(1,2),(2,3),(2,4),(4,5),(6,7),(7,8)} the engine
converges to 1↦1, 2↦1, 3↦1, 4↦1, 5↦1, 6↦6, 7↦6, 8↦6, but with 3 productive
iterations (new-pairs trace 4, 9, 4) and the fourth iteration observing zero
new pairs. -/
theorem claim_C2_scenario :
    processFuel false 10 [(1, 2), (2, 3), (2, 4), (4, 5), (6, 7), (7, 8)] =
      some ([(7, 6), (8, 6), (3, 1), (2, 1), (5, 1), (4, 1)], 3) ∧
    reprOf [(7, 6), (8, 6), (3, 1), (2, 1), (5, 1), (4, 1)] 1 = 1 ∧
    reprOf [(7, 6), (8, 6), (3, 1), (2, 1), (5, 1), (4, 1)] 2 = 1 ∧
    reprOf [(7, 6), (8, 6), (3, 1), (2, 1), (5, 1), (4, 1)] 3 = 1 ∧
    reprOf [(7, 6), (8, 6), (3, 1), (2, 1), (5, 1), (4, 1)] 4 = 1 ∧
    reprOf [(7, 6), (8, 6), (3, 1), (2, 1), (5, 1), (4, 1)] 5 = 1 ∧
    reprOf [(7, 6), (8, 6), (3, 1), (2, 1), (5, 1), (4, 1)] 6 = 6 ∧
    reprOf [(7, 6), (8, 6), (3, 1), (2, 1), (5, 1), (4, 1)] 7 = 6 ∧
    reprOf [(7, 6), (8, 6), (3, 1), (2, 1), (5, 1), (4, 1)] 8 = 6 ∧
    (CFF_iterate (iterRdd [(1, 2), (2, 3), (2, 4), (4, 5), (6, 7), (7, 8)] 0)).2 = 4 ∧
    (CFF_iterate (iterRdd [(1, 2), (2, 3), (2, 4), (4, 5), (6, 7), (7, 8)] 1)).2 = 9 ∧
    (CFF_iterate (iterRdd [(1, 2), (2, 3), (2, 4), (4, 5), (6, 7), (7, 8)] 2)).2 = 4 ∧
    (CFF_iterate (iterRdd [(1, 2), (2, 3), (2, 4), (4, 5), (6, 7), (7, 8)] 3)).2 = 0 := by
  decide

/-- C3 counterexample: on the single edge (1,2) the code reports 0 new
pairs, while the spec's per-record formula |values different from the
minimum| + 1 would total 1. -/
theorem claim_C3_counterexample :
    (CFF_iterate [((1 : Nat), (2 : Nat))]).2 = 0 ∧
      ((keysOf (emitPairs [((1 : Nat), (2 : Nat))])).map (fun k =>
        if listMin (valuesOf (emitPairs [((1 : Nat), (2 : Nat))]) k) < k then
          ((valuesOf (emitPairs [((1 : Nat), (2 : Nat))]) k).filter
            (fun v => v != listMin (valuesOf (emitPairs [((1 : Nat), (2 : Nat))]) k))).length + 1
        else 0)).sum = 1 := by
  decide

/-- C3 amended: the per-iteration new-pairs count is the sum, over the
grouped keys, of the number of grouped values different from the group
minimum when the key exceeds that minimum (with no extra +1 per record),
and 0 for the other keys. -/
theorem claim_C3_new_pairs_count (rdd : List (Nat × Nat)) :
    (CFF_iterate rdd).2 =
      ((keysOf (emitPairs rdd)).map (fun k =>
        if listMin (valuesOf (emitPairs rdd) k) < k then
          ((valuesOf (emitPairs rdd) k).filter
            (fun v => v != listMin (valuesOf (emitPairs rdd) k))).length
        else 0)).sum :=
  CFF_iterate_snd rdd

/-- C5: the self-loop edge set {(3,3)} converges in 0 productive iterations
with the empty output, whose mapping assigns 3 to itself; the pair emitter
keeps the self-loop, and the key-3 record is dropped by the reduction filter
because 3 is not greater than its group minimum 3. -/
theorem claim_C5_self_loop :
    processFuel false 1 [((3 : Nat), (3 : Nat))] = some ([], 0) ∧
      reprOf [] 3 = 3 ∧
      ((3 : Nat), (3 : Nat)) ∈ emitPairs [((3 : Nat), (3 : Nat))] ∧
      ¬ listMin (valuesOf (emitPairs [((3 : Nat), (3 : Nat))]) 3) < 3 := by
  decide

/-- C6: across any two consecutive batch iterations, every node's
representative never increases. -/
theorem claim_C6_monotone (rdd : List (Nat × Nat)) (n i : Nat) :
    reprOf (iterRdd rdd (i + 1)) n ≤ reprOf (iterRdd rdd i) n :=
  reprOf_CFF_le (iterRdd rdd i) n

/-- C7: whatever converged output the driver returns, every node's
representative is at most the node, and representatives are fixpoints of
the mapping (a node with no entry reads as its own representative). -/
theorem claim_C7_representative_valid (fuel : Nat) (rdd out : List (Nat × Nat))
    (k : Nat) (h : processFuel false fuel rdd = some (out, k)) (n : Nat) :
    reprOf out n ≤ n ∧ reprOf out (reprOf out n) = reprOf out n := by
  obtain ⟨E, rfl, hz⟩ := processFuel_out false fuel rdd out k h
  exact ⟨reprOf_CFF_le_self E n, converged_fixpoint E hz n⟩

theorem claim_C7_witness :
    processFuel false 1 [((2 : Nat), (1 : Nat))] = some ([(2, 1)], 0) ∧
      (reprOf [((2 : Nat), (1 : Nat))] 2 ≤ 2 ∧
        reprOf [((2 : Nat), (1 : Nat))] (reprOf [((2 : Nat), (1 : Nat))] 2) =
          reprOf [((2 : Nat), (1 : Nat))] 2) :=
  ⟨by decide, claim_C7_representative_valid 1 [(2, 1)] [(2, 1)] 0 (by decide) 2⟩

/-- C8: re-running the engine on any converged driver output yields a
zero new-pairs count at once, and the driver on that output performs no
productive iteration. -/
theorem claim_C8_idempotent (fuel : Nat) (rdd out : List (Nat × Nat)) (k : Nat)
    (h : processFuel false fuel rdd = some (out, k)) :
    (CFF_iterate out).2 = 0 ∧
      processFuel false 1 out = some ((CFF_iterate out).1, 0) := by
  obtain ⟨E, rfl, hz⟩ := processFuel_out false fuel rdd out k h
  have hz2 : (CFF_iterate E).2 = 0 := hz
  have hnext : (CFF_iterate (CFF_iterate E).1).2 = 0 := npZero_iterate_npZero E hz2
  have hnext2 : (CFF_iterate (stepOf false E).1).2 = 0 := hnext
  refine ⟨hnext2, ?_⟩
  rw [processFuel_succ, stepOf_false, if_pos hnext2]

theorem claim_C8_witness :
    processFuel false 1 [((1 : Nat), (2 : Nat))] = some ([(2, 1)], 0) ∧
      ((CFF_iterate [((2 : Nat), (1 : Nat))]).2 = 0 ∧
        processFuel false 1 [((2 : Nat), (1 : Nat))] =
          some ((CFF_iterate [((2 : Nat), (1 : Nat))]).1, 0)) :=
  ⟨by decide, claim_C8_idempotent 1 [(1, 2)] [(2, 1)] 0 (by decide)⟩

/-- C9: the duplicated and reversed edge set {(1,2),(1,2),(2,1)} converges
to exactly the same output (hence the same mapping) as {(1,2)} alone. -/
theorem claim_C9_duplicates :
    processFuel false 1 [((1 : Nat), (2 : Nat)), (1, 2), (2, 1)] =
        some ([(2, 1)], 0) ∧
      processFuel false 1 [((1 : Nat), (2 : Nat))] = some ([(2, 1)], 0) := by
  decide

/-- C10: on every input the batch convergence driver terminates: some fuel
makes it return a converged output after finitely many productive
iterations. -/
theorem claim_C10_terminates (rdd : List (Nat × Nat)) :
    ∃ fuel out k, processFuel false fuel rdd = some (out, k) := by
  obtain ⟨k, hk⟩ := npAt_eventually_zero rdd
  obtain ⟨out, j, hpf⟩ := processFuel_some k rdd hk
  exact ⟨k + 1, out, j, hpf⟩

theorem sortAsc_perm (l : List Nat) : List.Perm (sortAsc l) l :=
  List.perm_insertionSort _ l

theorem sortAsc_sorted (l : List Nat) : List.Sorted (fun a b => a ≤ b) (sortAsc l) :=
  List.sorted_insertionSort _ l

theorem sortAsc_cons_min {l : List Nat} (h : l ≠ []) :
    ∃ rest, sortAsc l = listMin l :: rest := by
  cases hs : sortAsc l with
  | nil =>
    exfalso
    apply h
    have := (sortAsc_perm l).length_eq
    rw [hs] at this
    exact List.length_eq_zero.mp this.symm
  | cons m rest =>
    refine ⟨rest, ?_⟩
    have hmem : m ∈ l := (sortAsc_perm l).subset (by rw [hs]; exact List.mem_cons_self m rest)
    have hle : listMin l ≤ m := listMin_le hmem
    have hsorted := sortAsc_sorted l
    rw [hs] at hsorted
    have hmin_mem : listMin l ∈ m :: rest := by
      rw [← hs]
      exact (sortAsc_perm l).symm.subset (listMin_mem h)
    have hge : m ≤ listMin l := by
      rcases List.mem_cons.mp hmin_mem with heq | hmem2
      · rw [heq]
      · exact (List.sorted_cons.mp hsorted).1 _ hmem2
    rw [le_antisymm hge hle]

theorem sortAsc_headI (l : List Nat) : (sortAsc l).headI = listMin l := by
  rcases eq_or_ne l [] with rfl | h
  · rfl
  · obtain ⟨rest, hrest⟩ := sortAsc_cons_min h
    rw [hrest]
    rfl

theorem sortAsc_tail_perm {l : List Nat} (hnd : l.Nodup) :
    List.Perm (sortAsc l).tail (l.filter (fun v => v != listMin l)) := by
  rcases eq_or_ne l [] with rfl | h
  · exact List.Perm.refl _
  · obtain ⟨rest, hrest⟩ := sortAsc_cons_min h
    have hperm : List.Perm (sortAsc l) l := sortAsc_perm l
    have hnodup : (sortAsc l).Nodup := hperm.symm.nodup hnd
    rw [hrest] at hnodup hperm
    have hnotmem : listMin l ∉ rest := (List.nodup_cons.mp hnodup).1
    have hfilter : List.Perm ((listMin l :: rest).filter (fun v => v != listMin l))
        (l.filter (fun v => v != listMin l)) := hperm.filter _
    rw [List.filter_cons] at hfilter
    simp only [bne_self_eq_false, Bool.false_eq_true, if_neg, reduceIte] at hfilter
    have hrest_filter : rest.filter (fun v => v != listMin l) = rest := by
      apply List.filter_eq_self.mpr
      intro v hv
      simp only [bne_iff_ne, ne_eq, decide_eq_true_eq]
      intro heq
      exact hnotmem (heq ▸ hv)
    rw [hrest_filter] at hfilter
    rw [hrest]
    exact hfilter

theorem reprOf_perm {l1 l2 : List (Nat × Nat)} (h : List.Perm l1 l2) (n : Nat) :
    reprOf l1 n = reprOf l2 n := by
  have hV : List.Perm (valuesOf l1 n) (valuesOf l2 n) := (h.filter _).map _
  rcases eq_or_ne (valuesOf l1 n) [] with he | hne
  · have he2 : valuesOf l2 n = [] := by
      have := hV.length_eq
      rw [he] at this
      exact List.length_eq_zero.mp this.symm
    rw [reprOf_of_empty he, reprOf_of_empty he2]
  · have hne2 : valuesOf l2 n ≠ [] := by
      intro he2
      apply hne
      have := hV.length_eq
      rw [he2] at this
      exact List.length_eq_zero.mp this
    rw [reprOf_eq_listMin hne, reprOf_eq_listMin hne2]
    exact listMin_perm hV

theorem goodInput_of_regime {E : List (Nat × Nat)} (h : Regime E) : GoodInput E := by
  refine ⟨h.2, ?_⟩
  rintro ⟨a, b⟩ hab hba
  have h1 := h.1 _ hab
  have h2 := h.1 _ hba
  simp only at h1 h2
  omega

theorem goodInput_perm {l1 l2 : List (Nat × Nat)} (hp : List.Perm l1 l2)
    (h : GoodInput l1) : GoodInput l2 := by
  refine ⟨hp.nodup h.1, ?_⟩
  intro p hpmem hrev
  exact h.2 p (hp.symm.subset hpmem) (hp.symm.subset hrev)

theorem emitPairs_nodup {rdd : List (Nat × Nat)} (h : GoodInput rdd) :
    (emitPairs rdd).Nodup := by
  unfold emitPairs
  rw [List.nodup_append]
  refine ⟨h.1, ?_, ?_⟩
  · apply h.1.map
    intro p q hpq
    exact Prod.ext (congrArg Prod.snd hpq) (congrArg Prod.fst hpq)
  · intro p hp hq
    rcases List.mem_map.mp hq with ⟨q, hqmem, rfl⟩
    exact h.2 q hqmem hp

theorem valuesOf_nodup {l : List (Nat × Nat)} (h : l.Nodup) (k : Nat) :
    (valuesOf l k).Nodup := by
  unfold valuesOf
  apply List.Nodup.map_on
  · rintro ⟨a, b⟩ ha ⟨c, d⟩ hc hsnd
    have ha2 := (List.mem_filter.mp ha).2
    have hc2 := (List.mem_filter.mp hc).2
    simp only [beq_iff_eq] at ha2 hc2
    simp only at hsnd
    rw [ha2, hc2, hsnd]
  · exact h.filter _

theorem goodInput_values_nodup {rdd : List (Nat × Nat)} (h : GoodInput rdd)
    (k : Nat) : (valuesOf (emitPairs rdd) k).Nodup :=
  valuesOf_nodup (emitPairs_nodup h) k

/-- The batch surviving records in per-key normal form. -/
theorem removedOf_eq (rdd : List (Nat × Nat)) :
    removedOf rdd =
      ((keysOf (emitPairs rdd)).filter
          (fun k => decide (listMin (valuesOf (emitPairs rdd) k) < k))).map
        (fun k => (k, (valuesOf (emitPairs rdd) k).filter
            (fun v => v != listMin (valuesOf (emitPairs rdd) k)),
          listMin (valuesOf (emitPairs rdd) k))) := by
  unfold removedOf groupByKey
  rw [List.map_map, List.filter_map, List.map_map]
  rfl

theorem CFF_iterate_sorting_eq (rdd : List (Nat × Nat)) :
    CFF_iterate_sorting rdd =
      (((removedSortOf rdd).map (fun x => (x.1, x.2.2)) ++
          (removedSortOf rdd).flatMap (fun x => x.2.1.map (fun v => (v, x.2.2)))).dedup,
        ((removedSortOf rdd).map (fun x => x.2.1.length)).sum) := rfl

theorem removedSortOf_eq (rdd : List (Nat × Nat)) :
    removedSortOf rdd =
      ((keysOf (emitPairs rdd)).filter
          (fun k => decide (listMin (valuesOf (emitPairs rdd) k) < k))).map
        (fun k => (k, (sortAsc (valuesOf (emitPairs rdd) k)).tail,
          listMin (valuesOf (emitPairs rdd) k))) := by
  unfold removedSortOf groupByKey
  rw [List.map_map, List.map_map, List.filter_map, List.map_map]
  simp only [Function.comp_def, sortAsc_headI]

/-- With duplicate-free groups, the sorted variant reports the same
new-pairs count as the batch variant. -/
theorem sorting_np_eq (rdd : List (Nat × Nat))
    (hg : ∀ k, (valuesOf (emitPairs rdd) k).Nodup) :
    (CFF_iterate_sorting rdd).2 = (CFF_iterate rdd).2 := by
  have hb : (CFF_iterate rdd).2 = ((removedOf rdd).map (fun x => x.2.1.length)).sum := by
    rw [CFF_iterate_eq]
  have hs : (CFF_iterate_sorting rdd).2 =
      ((removedSortOf rdd).map (fun x => x.2.1.length)).sum := by
    rw [CFF_iterate_sorting_eq]
  rw [hb, hs, removedOf_eq, removedSortOf_eq, List.map_map, List.map_map]
  apply congrArg
  apply List.map_congr_left
  intro k hk
  simp only [Function.comp_def]
  exact (sortAsc_tail_perm (hg k)).length_eq

/-- With duplicate-free groups, the sorted variant's output is the batch
variant's output up to order. -/
theorem sorting_out_perm (rdd : List (Nat × Nat))
    (hg : ∀ k, (valuesOf (emitPairs rdd) k).Nodup) :
    List.Perm (CFF_iterate_sorting rdd).1 (CFF_iterate rdd).1 := by
  have hb : (CFF_iterate rdd).1 =
      ((removedOf rdd).map (fun x => (x.1, x.2.2)) ++
        (removedOf rdd).flatMap (fun x => x.2.1.map (fun v => (v, x.2.2)))).dedup := by
    rw [CFF_iterate_eq]
  have hs : (CFF_iterate_sorting rdd).1 =
      ((removedSortOf rdd).map (fun x => (x.1, x.2.2)) ++
        (removedSortOf rdd).flatMap (fun x => x.2.1.map (fun v => (v, x.2.2)))).dedup := by
    rw [CFF_iterate_sorting_eq]
  rw [hb, hs]
  apply List.Perm.dedup
  apply List.Perm.append
  · rw [removedOf_eq, removedSortOf_eq, List.map_map, List.map_map]
    simp only [Function.comp_def]
    exact List.Perm.refl _
  · rw [removedOf_eq, removedSortOf_eq, List.flatMap_map, List.flatMap_map]
    apply List.Perm.flatMap_left
    intro k hk
    simp only
    exact (sortAsc_tail_perm (hg k)).map _

/-- The batch iteration's count is invariant under permuting the input. -/
theorem CFF_iterate_perm_snd {l1 l2 : List (Nat × Nat)} (h : List.Perm l1 l2) :
    (CFF_iterate l1).2 = (CFF_iterate l2).2 := by
  have hG : List.Perm (emitPairs l1) (emitPairs l2) := h.append (h.map _)
  have hVp : ∀ k, List.Perm (valuesOf (emitPairs l1) k) (valuesOf (emitPairs l2) k) :=
    fun k => (hG.filter _).map _
  have hmin : ∀ k, listMin (valuesOf (emitPairs l1) k) =
      listMin (valuesOf (emitPairs l2) k) := fun k => listMin_perm (hVp k)
  have hkeys : List.Perm (keysOf (emitPairs l1)) (keysOf (emitPairs l2)) :=
    (hG.map _).dedup
  rw [CFF_iterate_snd, CFF_iterate_snd]
  have hstep : ((keysOf (emitPairs l1)).map (fun k =>
      if listMin (valuesOf (emitPairs l1) k) < k then
        ((valuesOf (emitPairs l1) k).filter
          (fun v => v != listMin (valuesOf (emitPairs l1) k))).length
      else 0)).sum =
      ((keysOf (emitPairs l1)).map (fun k =>
        if listMin (valuesOf (emitPairs l2) k) < k then
          ((valuesOf (emitPairs l2) k).filter
            (fun v => v != listMin (valuesOf (emitPairs l2) k))).length
        else 0)).sum := by
    apply congrArg
    apply List.map_congr_left
    intro k hk
    rw [hmin k]
    have hlen : ((valuesOf (emitPairs l1) k).filter
        (fun v => v != listMin (valuesOf (emitPairs l2) k))).length =
        ((valuesOf (emitPairs l2) k).filter
          (fun v => v != listMin (valuesOf (emitPairs l2) k))).length :=
      ((hVp k).filter _).length_eq
    split
    · exact hlen
    · rfl
  rw [hstep]
  exact (hkeys.map _).sum_eq

/-- The batch iteration's output is permutation-invariant in the input. -/
theorem CFF_iterate_perm_fst {l1 l2 : List (Nat × Nat)} (h : List.Perm l1 l2) :
    List.Perm (CFF_iterate l1).1 (CFF_iterate l2).1 := by
  have hG : List.Perm (emitPairs l1) (emitPairs l2) := h.append (h.map _)
  have hVp : ∀ k, List.Perm (valuesOf (emitPairs l1) k) (valuesOf (emitPairs l2) k) :=
    fun k => (hG.filter _).map _
  have hmin : ∀ k, listMin (valuesOf (emitPairs l1) k) =
      listMin (valuesOf (emitPairs l2) k) := fun k => listMin_perm (hVp k)
  have hkeys : List.Perm (keysOf (emitPairs l1)) (keysOf (emitPairs l2)) :=
    (hG.map _).dedup
  have hpred : (fun k => decide (listMin (valuesOf (emitPairs l1) k) < k)) =
      (fun k => decide (listMin (valuesOf (emitPairs l2) k) < k)) := by
    funext k
    rw [decide_eq_decide]
    rw [hmin k]
  have hksf : List.Perm
      ((keysOf (emitPairs l1)).filter
        (fun k => decide (listMin (valuesOf (emitPairs l1) k) < k)))
      ((keysOf (emitPairs l2)).filter
        (fun k => decide (listMin (valuesOf (emitPairs l2) k) < k))) := by
    rw [hpred]
    exact hkeys.filter _
  have hb : (CFF_iterate l1).1 =
      ((removedOf l1).map (fun x => (x.1, x.2.2)) ++
        (removedOf l1).flatMap (fun x => x.2.1.map (fun v => (v, x.2.2)))).dedup := by
    rw [CFF_iterate_eq]
  have hb2 : (CFF_iterate l2).1 =
      ((removedOf l2).map (fun x => (x.1, x.2.2)) ++
        (removedOf l2).flatMap (fun x => x.2.1.map (fun v => (v, x.2.2)))).dedup := by
    rw [CFF_iterate_eq]
  rw [hb, hb2]
  apply List.Perm.dedup
  apply List.Perm.append
  · rw [removedOf_eq, removedOf_eq, List.map_map, List.map_map]
    simp only [Function.comp_def]
    have hfun : ∀ k ∈ (keysOf (emitPairs l1)).filter
        (fun k => decide (listMin (valuesOf (emitPairs l1) k) < k)),
        ((k, listMin (valuesOf (emitPairs l1) k)) : Nat × Nat) =
          (k, listMin (valuesOf (emitPairs l2) k)) := by
      intro k _
      rw [hmin k]
    rw [List.map_congr_left hfun]
    exact hksf.map _
  · rw [removedOf_eq, removedOf_eq, List.flatMap_map, List.flatMap_map]
    have hpt : ∀ k ∈ (keysOf (emitPairs l1)).filter
        (fun k => decide (listMin (valuesOf (emitPairs l1) k) < k)),
        List.Perm
          (((valuesOf (emitPairs l1) k).filter
            (fun v => v != listMin (valuesOf (emitPairs l1) k))).map
              (fun v => (v, listMin (valuesOf (emitPairs l1) k))))
          (((valuesOf (emitPairs l2) k).filter
            (fun v => v != listMin (valuesOf (emitPairs l2) k))).map
              (fun v => (v, listMin (valuesOf (emitPairs l2) k)))) := by
      intro k _
      rw [← hmin k]
      exact ((hVp k).filter _).map _
    exact (List.Perm.flatMap_left _ hpt).trans (hksf.flatMap_right _)

/-- For duplicate-free, reversal-free inputs the sorted driver matches the
batch driver step for step: same productive iteration count and
permutation-equal final output. -/
theorem processFuel_variant : ∀ (fuel : Nat) (rdd1 rdd2 out1 : List (Nat × Nat)) (k : Nat),
    GoodInput rdd1 → List.Perm rdd1 rdd2 →
    processFuel false fuel rdd1 = some (out1, k) →
    ∃ out2, processFuel true fuel rdd2 = some (out2, k) ∧ List.Perm out1 out2 := by
  intro fuel
  induction fuel with
  | zero =>
    intro rdd1 rdd2 out1 k _ _ h
    cases h
  | succ n ih =>
    intro rdd1 rdd2 out1 k hgood hperm h1
    have hgood2 : GoodInput rdd2 := goodInput_perm hperm hgood
    have hg2 : ∀ kk, (valuesOf (emitPairs rdd2) kk).Nodup :=
      goodInput_values_nodup hgood2
    have hc2 : (CFF_iterate_sorting rdd2).2 = (CFF_iterate rdd1).2 :=
      (sorting_np_eq rdd2 hg2).trans (CFF_iterate_perm_snd hperm.symm)
    have hout2 : List.Perm (CFF_iterate_sorting rdd2).1 (CFF_iterate rdd1).1 :=
      (sorting_out_perm rdd2 hg2).trans (CFF_iterate_perm_fst hperm.symm)
    rw [processFuel_succ, stepOf_false] at h1
    by_cases hc : (CFF_iterate rdd1).2 = 0
    · rw [if_pos hc] at h1
      simp only [Option.some.injEq, Prod.mk.injEq] at h1
      obtain ⟨hout, hk⟩ := h1
      refine ⟨(CFF_iterate_sorting rdd2).1, ?_, ?_⟩
      · rw [processFuel_succ, stepOf_true, if_pos (hc2.trans hc), ← hk]
      · rw [← hout]
        exact hout2.symm
    · rw [if_neg hc] at h1
      cases hrec : processFuel false n (CFF_iterate rdd1).1 with
      | none =>
        rw [hrec] at h1
        cases h1
      | some r =>
        obtain ⟨r1, r2⟩ := r
        rw [hrec] at h1
        simp only [Option.some.injEq, Prod.mk.injEq] at h1
        obtain ⟨hout, hk⟩ := h1
        have hgoodE : GoodInput (CFF_iterate rdd1).1 :=
          goodInput_of_regime (regime_CFF_output rdd1)
        obtain ⟨out2, hpf2, hperm2⟩ :=
          ih (CFF_iterate rdd1).1 (CFF_iterate_sorting rdd2).1 r1 r2 hgoodE
            hout2.symm hrec
        refine ⟨out2, ?_, ?_⟩
        · have hcs : (CFF_iterate_sorting rdd2).2 ≠ 0 := by
            rw [hc2]
            exact hc
          rw [processFuel_succ, stepOf_true, if_neg hcs, hpf2, ← hk]
        · rw [← hout]
          exact hperm2

/-- C1 counterexample: on the input [(1,2),(2,1)] the batch driver converges
after 0 productive iterations while the sorted driver needs 1, so the two
variants do not share the iteration count to convergence. -/
theorem claim_C1_counterexample :
    (processFuel false 2 [((1 : Nat), (2 : Nat)), (2, 1)]).map Prod.snd = some 0 ∧
      (processFuel true 2 [((1 : Nat), (2 : Nat)), (2, 1)]).map Prod.snd = some 1 ∧
      (0 : Nat) ≠ 1 := by
  decide

/-- C1 amended: on inputs with no duplicate edge and no edge present with
its reversal, the two drivers converge after the same number of productive
iterations to outputs that are permutations of each other and induce the
same component assignment. -/
theorem claim_C1_variants_agree (fuel : Nat) (rdd out : List (Nat × Nat)) (k : Nat)
    (hgood : GoodInput rdd) (h : processFuel false fuel rdd = some (out, k)) :
    ∃ out2, processFuel true fuel rdd = some (out2, k) ∧ List.Perm out out2 ∧
      ∀ n, reprOf out2 n = reprOf out n := by
  obtain ⟨out2, hpf, hperm⟩ :=
    processFuel_variant fuel rdd rdd out k hgood (List.Perm.refl _) h
  exact ⟨out2, hpf, hperm, fun n => reprOf_perm hperm.symm n⟩

theorem claim_C1_witness :
    (GoodInput [((1 : Nat), (2 : Nat))] ∧
        processFuel false 1 [((1 : Nat), (2 : Nat))] = some ([(2, 1)], 0)) ∧
      ∃ out2, processFuel true 1 [((1 : Nat), (2 : Nat))] = some (out2, 0) ∧
        List.Perm [((2 : Nat), (1 : Nat))] out2 ∧
        ∀ n, reprOf out2 n = reprOf [((2 : Nat), (1 : Nat))] n :=
  ⟨⟨by decide, by decide⟩,
    claim_C1_variants_agree 1 [(1, 2)] [(2, 1)] 0 (by decide) (by decide)⟩

/-- C4 counterexample: for the key-2 group of input [(1,2),(2,1)] the value
list is [1,1]; the sorted tail [1] is not the duplicate-free remainder [],
and the two variants report different per-iteration counts (1 against 0). -/
theorem claim_C4_counterexample :
    valuesOf (emitPairs [((1 : Nat), (2 : Nat)), (2, 1)]) 2 = [1, 1] ∧
      listMin [1, 1] < 2 ∧
      ¬ List.Perm (sortAsc [1, 1]).tail
        ([1, 1].filter (fun v => v != listMin [1, 1])) ∧
      (CFF_iterate_sorting [((1 : Nat), (2 : Nat)), (2, 1)]).2 = 1 ∧
      (CFF_iterate [((1 : Nat), (2 : Nat)), (2, 1)]).2 = 0 := by
  decide

/-- C4 amended: for a duplicate-free record whose key exceeds the group
minimum, the sorted tail is a permutation of the values different from the
minimum, with equal lengths and permutation-equal emitted pairs; hence on
inputs with duplicate-free groups the two variants report equal counts and
permutation-equal emissions. -/
theorem claim_C4_sorted_emission (n : Nat) (V : List Nat) (hnd : V.Nodup)
    (hlt : listMin V < n) :
    List.Perm (sortAsc V).tail (V.filter (fun v => v != listMin V)) ∧
      (sortAsc V).tail.length = (V.filter (fun v => v != listMin V)).length ∧
      List.Perm ((sortAsc V).tail.map (fun v => (v, listMin V)))
        ((V.filter (fun v => v != listMin V)).map (fun v => (v, listMin V))) ∧
      ∀ rdd : List (Nat × Nat), GoodInput rdd →
        (CFF_iterate_sorting rdd).2 = (CFF_iterate rdd).2 ∧
          List.Perm (CFF_iterate_sorting rdd).1 (CFF_iterate rdd).1 := by
  refine ⟨sortAsc_tail_perm hnd, (sortAsc_tail_perm hnd).length_eq,
    (sortAsc_tail_perm hnd).map _, ?_⟩
  intro rdd hgood
  exact ⟨sorting_np_eq rdd (goodInput_values_nodup hgood),
    sorting_out_perm rdd (goodInput_values_nodup hgood)⟩

theorem claim_C4_witness :
    (([1] : List Nat).Nodup ∧ listMin [1] < 2) ∧
      (List.Perm (sortAsc [1]).tail ([1].filter (fun v => v != listMin [1])) ∧
        (sortAsc [1]).tail.length = ([1].filter (fun v => v != listMin [1])).length ∧
        List.Perm ((sortAsc [1]).tail.map (fun v => (v, listMin [1])))
          (([1].filter (fun v => v != listMin [1])).map (fun v => (v, listMin [1]))) ∧
        ∀ rdd : List (Nat × Nat), GoodInput rdd →
          (CFF_iterate_sorting rdd).2 = (CFF_iterate rdd).2 ∧
            List.Perm (CFF_iterate_sorting rdd).1 (CFF_iterate rdd).1) :=
  ⟨⟨by decide, by decide⟩, claim_C4_sorted_emission 2 [1] (by decide) (by decide)⟩

end CCF
